import Mathlib

/-!
Shallow embedding of `arangod/Aql/SortedCollectExecutor.cpp` (the sorted
COLLECT operator of the AQL execution engine) and proofs about it.

The embedding mirrors the source file:
* `Value` models the opaque `AqlValue` datum (comparable, cloneable;
  a default-constructed `AqlValue` is the VelocyPack `null` value, and
  an erased one holds no VelocyPack data at all, modelled as `noneV`).
* `Row` models `InputAqlItemRow` viewed as a fixed-width vector of values
  addressed by register id; an invalid row (`CreateInvalidInputRowHint`)
  is modelled as `Option.none` at use sites.
* `Infos` models `SortedCollectExecutorInfos`; the sentinel register id
  `ExecutionNode::MaxRegisterId` ("no collect register configured") is
  modelled by `Option.none` in `collectRegister`.
* `CollectGroup` models `SortedCollectExecutor::CollectGroup`.  Group-key
  slots carry an optional ownership token (`Slot.owner`): cloning a value
  out of an input row allocates a fresh token, `erase` drops the token
  without releasing, `destroy` releases (recorded in an event trace) and
  erases.  The trace lets us state the single-release discipline.
* Aggregators are pluggable external reducers (`Aggregator::reduce` /
  `stealValue`); each one is modelled by the list of values that were
  reduced into it since the last reset, which is exactly the information
  the executor hands to it.
* The VelocyPack builder for collected values is modelled by `VBuilder`:
  an open-array flag plus the appended items.  Closing a builder whose
  array was never opened fails (`TRI_ASSERT(_builder.isOpenArray())`,
  and in production `VPackBuilder::close` throws); fallible operations
  return `Option`.
* The upstream `SingleRowFetcher` is an external collaborator; it is
  modelled by a script of fetch results: `wait` = (`WAITING`, invalid),
  `row r` = (`HASMORE`, r), `lastRow r` = (`DONE`, r); an exhausted
  script yields (`DONE`, invalid).
-/

namespace SortedCollect

/-- Opaque datum flowing through rows, modelling `AqlValue`.  `nullV` is the
value held by a default-constructed `AqlValue`; `noneV` models an erased
`AqlValue` that points to no VelocyPack data. -/
inductive Value
  | noneV
  | nullV
  | boolV (b : Bool)
  | intV (n : Int)
  | strV (s : String)
deriving DecidableEq

/-- Type rank used by the 3-way value comparison. -/
def valRank : Value → Nat
  | .noneV => 0
  | .nullV => 1
  | .boolV _ => 2
  | .intV _ => 3
  | .strV _ => 4

/-- 3-way comparison of values, modelling `AqlValue::Compare`: values of
different kinds are ordered by type rank, values of the same kind by their
payload. -/
def cmpValue : Value → Value → Ordering
  | .boolV x, .boolV y => compare x y
  | .intV x, .intV y => compare x y
  | .strV x, .strV y => compare x y
  | a, b => compare (valRank a) (valRank b)

/-- An input row: a read-only vector of values addressed by register id,
modelling a valid `InputAqlItemRow`. -/
structure Row where
  cells : List Value
deriving DecidableEq

/-- `InputAqlItemRow::getValue`. -/
def Row.getValue (r : Row) (reg : Nat) : Value := r.cells.getD reg .nullV

/-- Static configuration, modelling `SortedCollectExecutorInfos`.  Register
pairs are (output register, input register); `collectRegister = none` models
the `ExecutionNode::MaxRegisterId` sentinel; `hasExpressionVariable` models
`getExpressionVariable() != nullptr`; `varBindings` models `_variables`, the
(name, register) pairs of `getVariables()`. -/
structure Infos where
  groupRegisters : List (Nat × Nat)
  aggregateRegisters : List (Nat × Nat)
  collectRegister : Option Nat
  expressionRegister : Nat
  hasExpressionVariable : Bool
  varBindings : List (String × Nat)
  count : Bool
deriving DecidableEq

/-- A group-key slot of the accumulator: the visible value plus an optional
ownership token for the memory the slot owns (a freshly cloned value owns
its memory, a default or erased slot owns none). -/
structure Slot where
  owner : Option Nat
  val : Value
deriving DecidableEq

/-- Ownership-release events of the accumulator: `destroyed` models
`AqlValue::destroy` freeing owned memory, `transferred` models
`OutputAqlItemRow::moveValueInto` taking the ownership over. -/
inductive REvent
  | destroyed (id : Nat)
  | transferred (id : Nat)
deriving DecidableEq

/-- The ownership token an ownership-release event concerns. -/
def evId : REvent → Nat
  | .destroyed i => i
  | .transferred i => i

/-- One item appended to the collected-values buffer by `addLine`: either the
serialized value of the expression register, or one object of the bound
(name, register) variable pairs. -/
inductive CItem
  | expr (v : Value)
  | obj (fields : List (String × Value))
deriving DecidableEq

/-- The VelocyPack builder for collected values (`CollectGroup::_builder`):
whether an array is currently open, and the items appended so far. -/
structure VBuilder where
  isOpenArray : Bool
  items : List CItem
deriving DecidableEq

/-- The group accumulator, modelling `SortedCollectExecutor::CollectGroup`.
`trace` records every ownership-release event of the group-key slots over
the accumulator's lifetime. -/
structure CollectGroup where
  groupValues : List Slot
  groupLength : Nat
  aggregators : List (List Value)
  builder : VBuilder
  lastInputRow : Option Row
  nextId : Nat
  trace : List REvent
deriving DecidableEq

/-- `AqlValue::erase`: drop the ownership token without releasing; the slot
no longer points at any VelocyPack data. -/
def Slot.eraseSlot (_ : Slot) : Slot := ⟨none, .noneV⟩

/-- Modelled from the spec: `AqlValue::destroy` (declared outside this
source file) releases the owned memory — "each destroyed exactly once" — and
erases the slot; on a non-owning value it is a no-op. -/
def Slot.destroy (s : Slot) : Slot × List REvent :=
  match s.owner with
  | some i => (⟨none, .noneV⟩, [.destroyed i])
  | none => (s, [])

/-- The destroy loop of `CollectGroup::reset` (and the destructor): destroy
every slot, collecting the release events. -/
def destroyAll : List Slot → List Slot × List REvent
  | [] => ([], [])
  | s :: ss =>
    ((s.destroy).1 :: (destroyAll ss).1, (s.destroy).2 ++ (destroyAll ss).2)

/-- The clone loop of `CollectGroup::reset`:
`groupValues[i] = input.getValue(groupRegisters[i].second).clone()`.
Each clone allocates a fresh ownership token. -/
def cloneKeys (nid : Nat) : List (Nat × Nat) → List Slot → Row → List Slot
  | [], slots, _ => slots
  | _ :: _, [], _ => []
  | (_, src) :: regs, _ :: slots, r =>
    ⟨some nid, r.getValue src⟩ :: cloneKeys (nid + 1) regs slots r

/-- The aggregator loop of `CollectGroup::addLine`: for each aggregator `j`,
`reduce(input.getValue(aggregateRegisters[j].second))`. -/
def reduceAll : List (Nat × Nat) → List (List Value) → Row → List (List Value)
  | (_, src) :: regs, st :: sts, r =>
    (st ++ [r.getValue src]) :: reduceAll regs sts r
  | _, sts, _ => sts

/-- `CollectGroup::addLine`: remember the row as last contributing row,
reduce every aggregator with its bound source register, then — when a
collect register is configured — count the row, or append the serialized
expression value, or append one object of the bound variables. -/
def CollectGroup.addLine (g : CollectGroup) (infos : Infos) (r : Row) : CollectGroup :=
  let g1 : CollectGroup :=
    { g with
      lastInputRow := some r
      aggregators := reduceAll infos.aggregateRegisters g.aggregators r }
  match infos.collectRegister with
  | none => g1
  | some _ =>
    if infos.count then
      { g1 with groupLength := g1.groupLength + 1 }
    else if infos.hasExpressionVariable then
      { g1 with builder :=
          { g1.builder with
            items := g1.builder.items ++ [.expr (r.getValue infos.expressionRegister)] } }
    else
      { g1 with builder :=
          { g1.builder with
            items := g1.builder.items ++
              [.obj (infos.varBindings.map (fun p => (p.1, r.getValue p.2)))] } }

/-- The key-comparison loop of `CollectGroup::isSameGroup`, walking the
group registers and the stored group values in parallel; a slot read past
the end of `groupValues` is modelled as a default-constructed value. -/
def sameKeys : List (Nat × Nat) → List Slot → Row → Bool
  | [], _, _ => true
  | (_, src) :: regs, s :: slots, r =>
    if cmpValue s.val (r.getValue src) = .eq then sameKeys regs slots r else false
  | (_, src) :: regs, [], r =>
    if cmpValue Value.nullV (r.getValue src) = .eq then sameKeys regs [] r else false

/-- `CollectGroup::isSameGroup`: false on an invalid row; otherwise true
exactly when every group-key column of the row compares equal to the stored
group value at the same position. -/
def CollectGroup.isSameGroup (g : CollectGroup) (infos : Infos) (input : Option Row) : Bool :=
  match input with
  | none => false
  | some r => sameKeys infos.groupRegisters g.groupValues r

/-- Modelled from the spec: `CollectGroup::isValid` is declared in the
executor's header, which is not among the sources; per the spec the
accumulator is valid exactly while a run is open, i.e. while a last
contributing row is recorded (cleared again by `reset` with an invalid
row). -/
def CollectGroup.isValid (g : CollectGroup) : Bool := g.lastInputRow.isSome

/-- A value written into the output row: a moved group-key value, a stolen
aggregator result (identified by the values reduced into the aggregator), a
freshly built count value, or the sealed collected-values buffer. -/
inductive OVal
  | moved (v : Value)
  | agg (reduced : List Value)
  | cnt (n : Nat)
  | collected (items : List CItem)
deriving DecidableEq

/-- One produced output row, as the ordered list of
(output register, value) writes performed on the `OutputAqlItemRow`. -/
abbrev OutRow := List (Nat × OVal)

/-- The group-key loop of `CollectGroup::writeToOutput`: move each stored
value into its output register (the ownership token is transferred), then
erase the slot.  Returns the writes, the updated slots, and the transfer
events. -/
def writeKeys : List (Nat × Nat) → List Slot → OutRow × List Slot × List REvent
  | [], slots => ([], slots, [])
  | (out, _) :: regs, [] =>
    ((out, .moved Value.nullV) :: (writeKeys regs []).1,
      (writeKeys regs []).2.1, (writeKeys regs []).2.2)
  | (out, _) :: regs, s :: slots =>
    ((out, .moved s.val) :: (writeKeys regs slots).1,
      s.eraseSlot :: (writeKeys regs slots).2.1,
      (match s.owner with | some i => [REvent.transferred i] | none => []) ++
        (writeKeys regs slots).2.2)

/-- The aggregator loop of `CollectGroup::writeToOutput`: steal each
aggregator's value into its output register; stealing leaves the aggregator
empty. -/
def writeAggs : List (Nat × Nat) → List (List Value) → OutRow × List (List Value)
  | (out, _) :: regs, st :: sts =>
    ((out, .agg st) :: (writeAggs regs sts).1, ([] : List Value) :: (writeAggs regs sts).2)
  | _, sts => ([], sts)

/-- `CollectGroup::writeToOutput`: move the group-key values out, steal the
aggregator values, then — when a collect register is configured — write the
count, or seal and move the collected-values buffer.  Sealing a buffer whose
array was never opened fails (`TRI_ASSERT(_builder.isOpenArray())`;
`VPackBuilder::close` throws), modelled as `none`. -/
def CollectGroup.writeToOutput (g : CollectGroup) (infos : Infos) :
    Option (OutRow × CollectGroup) :=
  let kws := (writeKeys infos.groupRegisters g.groupValues).1
  let slots' := (writeKeys infos.groupRegisters g.groupValues).2.1
  let evs := (writeKeys infos.groupRegisters g.groupValues).2.2
  let aws := (writeAggs infos.aggregateRegisters g.aggregators).1
  let aggs' := (writeAggs infos.aggregateRegisters g.aggregators).2
  let g1 : CollectGroup :=
    { g with groupValues := slots', aggregators := aggs', trace := g.trace ++ evs }
  match infos.collectRegister with
  | none => some (kws ++ aws, g1)
  | some c =>
    if infos.count then
      some (kws ++ aws ++ [(c, .cnt g.groupLength)], g1)
    else if g.builder.isOpenArray then
      some (kws ++ aws ++ [(c, .collected g.builder.items)],
        { g1 with builder := ⟨false, []⟩ })
    else
      none

/-- `CollectGroup::reset`: fresh builder, destroy all stored group values
(then the leftover `groupValues[0].erase()`), zero the count, remember the
new row, reset all aggregators; when the new row is valid, open the
collected-values array, clone the group-key columns out of the row and add
the row itself as the group's first member. -/
def CollectGroup.reset (g : CollectGroup) (infos : Infos) (input : Option Row) : CollectGroup :=
  let slots1 := (destroyAll g.groupValues).1
  let evs := (destroyAll g.groupValues).2
  let slots2 := if g.groupValues.isEmpty then slots1 else slots1.modifyHead Slot.eraseSlot
  let aggs := g.aggregators.map (fun _ => ([] : List Value))
  match input with
  | none =>
    { groupValues := slots2, groupLength := 0, aggregators := aggs,
      builder := ⟨false, []⟩, lastInputRow := none,
      nextId := g.nextId, trace := g.trace ++ evs }
  | some r =>
    let g1 : CollectGroup :=
      { groupValues := cloneKeys g.nextId infos.groupRegisters slots2 r,
        groupLength := 0, aggregators := aggs,
        builder := ⟨true, []⟩, lastInputRow := some r,
        nextId := g.nextId + infos.groupRegisters.length,
        trace := g.trace ++ evs }
    g1.addLine infos r

/-- `ExecutionState` of the engine, restricted to the values `produceRow`
returns or receives from the fetcher. -/
inductive ExecutionState
  | waiting
  | hasmore
  | done
deriving DecidableEq

/-- One scripted reply of the upstream fetcher: `wait` = (`WAITING`,
invalid row), `row r` = (`HASMORE`, r), `lastRow r` = (`DONE`, r).  An
exhausted script replies (`DONE`, invalid row). -/
inductive FetchStep
  | wait
  | row (r : Row)
  | lastRow (r : Row)
deriving DecidableEq

/-- The executor state surviving between `produceRow` invocations: the group
accumulator, the `_fetcherDone` flag, and the remaining fetcher script. -/
structure ExecState where
  group : CollectGroup
  fetcherDone : Bool
  script : List FetchStep
deriving DecidableEq

/-- The accumulator as set up by the executor's constructor:
`initialize(groupRegisters.size())` — default-constructed key slots, zero
length, one freshly reset aggregator per aggregate register, default
builder, invalid last row. -/
def initGroup (infos : Infos) : CollectGroup :=
  { groupValues := List.replicate infos.groupRegisters.length ⟨none, .nullV⟩,
    groupLength := 0,
    aggregators := List.replicate infos.aggregateRegisters.length [],
    builder := ⟨false, []⟩, lastInputRow := none, nextId := 0, trace := [] }

/-- The fetch loop of `SortedCollectExecutor::produceRow` (lines 306-351):
pull a row; propagate `WAITING` untouched; fold a same-group row in (and
finalize at stream end); on a group change finalize a valid open group and
start the new run, else just start the new run and keep pulling.  Returns
the produced output rows (at most one), the new accumulator, the
`_fetcherDone` flag and the remaining script; `none` models a thrown
exception. -/
def produceLoop (infos : Infos) :
    CollectGroup → Bool → List FetchStep →
    Option (ExecutionState × List OutRow × CollectGroup × Bool × List FetchStep)
  | g, _, [] =>
    if g.isValid then
      match g.writeToOutput infos with
      | none => none
      | some (out, g1) => some (.done, [out], g1.reset infos none, true, [])
    else
      some (.done, [], g, true, [])
  | g, fd, .wait :: rest => some (.waiting, [], g, fd, rest)
  | g, fd, .row r :: rest =>
    if g.isSameGroup infos (some r) then
      produceLoop infos (g.addLine infos r) fd rest
    else if g.isValid then
      match g.writeToOutput infos with
      | none => none
      | some (out, g1) => some (.hasmore, [out], g1.reset infos (some r), fd, rest)
    else
      produceLoop infos (g.reset infos (some r)) fd rest
  | g, _, .lastRow r :: rest =>
    if g.isSameGroup infos (some r) then
      match (g.addLine infos r).writeToOutput infos with
      | none => none
      | some (out, g1) => some (.done, [out], g1.reset infos none, true, rest)
    else if g.isValid then
      match g.writeToOutput infos with
      | none => none
      | some (out, g1) => some (.hasmore, [out], g1.reset infos (some r), true, rest)
    else
      produceLoop infos (g.reset infos (some r)) true rest

/-- `SortedCollectExecutor::produceRow`: when the fetcher is done and a
valid group is pending, finalize it and report `DONE`; otherwise run the
fetch loop.  Returns the new state and the output rows written during this
invocation; `none` models a thrown exception. -/
def produceRow (infos : Infos) (s : ExecState) :
    Option (ExecutionState × List OutRow × ExecState) :=
  if s.fetcherDone && s.group.isValid then
    match s.group.writeToOutput infos with
    | none => none
    | some (out, g1) =>
      some (.done, [out], ⟨g1.reset infos none, s.fetcherDone, s.script⟩)
  else
    match produceLoop infos s.group s.fetcherDone s.script with
    | none => none
    | some (st, outs, g', fd', rest) => some (st, outs, ⟨g', fd', rest⟩)

/-- The driver: invoke `produceRow` repeatedly — retrying after `WAITING`,
continuing after `HASMORE` — until `DONE`, collecting every output row
produced.  `fuel` bounds the number of invocations; `none` models a thrown
exception (or insufficient fuel, which never happens once `fuel` exceeds
the script length). -/
def runFuel (infos : Infos) : Nat → ExecState → Option (List OutRow × ExecState)
  | 0, _ => none
  | f + 1, s =>
    match produceRow infos s with
    | none => none
    | some (st, outs, s') =>
      if st = .done then some (outs, s')
      else
        match runFuel infos f s' with
        | none => none
        | some (rest, s'') => some (outs ++ rest, s'')

/-- The driver with always-sufficient fuel. -/
def run (infos : Infos) (s : ExecState) : Option (List OutRow × ExecState) :=
  runFuel infos (s.script.length + 1) s

/-- The same fetcher script with every suspension removed: the equivalent
run in which the source never suspends. -/
def eraseWaits : List FetchStep → List FetchStep
  | [] => []
  | .wait :: rest => eraseWaits rest
  | .row r :: rest => .row r :: eraseWaits rest
  | .lastRow r :: rest => .lastRow r :: eraseWaits rest

/-- Well-formed fetcher scripts: a (`DONE`, row) reply is final — the
`SingleRowFetcher` never delivers anything after reporting `DONE`. -/
def wfScript : List FetchStep → Bool
  | [] => true
  | .lastRow _ :: rest => rest.isEmpty
  | .wait :: rest => wfScript rest
  | .row _ :: rest => wfScript rest

/-- Fold a list of rows into the open group via `addLine`. -/
def addLines (infos : Infos) (g : CollectGroup) (rs : List Row) : CollectGroup :=
  rs.foldl (fun h r => h.addLine infos r) g

/-! ### Basic lemmas -/

theorem isValid_initGroup (infos : Infos) : (initGroup infos).isValid = false := rfl

theorem produceRow_fd_false (infos : Infos) (g : CollectGroup) (script : List FetchStep) :
    produceRow infos ⟨g, false, script⟩ =
      match produceLoop infos g false script with
      | none => none
      | some (st, outs, g', fd', rest) => some (st, outs, ⟨g', fd', rest⟩) := by
  simp [produceRow]

theorem addLine_groupValues (infos : Infos) (g : CollectGroup) (r : Row) :
    (g.addLine infos r).groupValues = g.groupValues := by
  unfold CollectGroup.addLine
  cases hcr : infos.collectRegister <;> cases hc : infos.count <;>
    cases he : infos.hasExpressionVariable <;> simp

theorem addLine_builderOpen (infos : Infos) (g : CollectGroup) (r : Row) :
    (g.addLine infos r).builder.isOpenArray = g.builder.isOpenArray := by
  unfold CollectGroup.addLine
  cases hcr : infos.collectRegister <;> cases hc : infos.count <;>
    cases he : infos.hasExpressionVariable <;> simp

theorem addLine_trace (infos : Infos) (g : CollectGroup) (r : Row) :
    (g.addLine infos r).trace = g.trace := by
  unfold CollectGroup.addLine
  cases hcr : infos.collectRegister <;> cases hc : infos.count <;>
    cases he : infos.hasExpressionVariable <;> simp

theorem addLine_nextId (infos : Infos) (g : CollectGroup) (r : Row) :
    (g.addLine infos r).nextId = g.nextId := by
  unfold CollectGroup.addLine
  cases hcr : infos.collectRegister <;> cases hc : infos.count <;>
    cases he : infos.hasExpressionVariable <;> simp

/-! ### C9: zero input rows -/

/-- C9: for an input stream with zero rows total — the fetcher immediately
reports exhaustion, possibly after any number of suspensions — `produceRow`
writes no output row and returns the terminal `DONE` status. -/
theorem collect_C9_empty_input (infos : Infos) :
    produceRow infos ⟨initGroup infos, false, []⟩ =
      some (.done, [], ⟨initGroup infos, true, []⟩) ∧
    ∀ n : Nat,
      runFuel infos (n + 1) ⟨initGroup infos, false, List.replicate n .wait⟩ =
        some ([], ⟨initGroup infos, true, []⟩) := by
  have h0 : produceRow infos ⟨initGroup infos, false, []⟩ =
      some (.done, [], ⟨initGroup infos, true, []⟩) := by
    simp [produceRow, produceLoop, isValid_initGroup]
  refine ⟨h0, ?_⟩
  intro n
  induction n with
  | zero => simp [runFuel, h0]
  | succ n ih =>
    have hw : produceRow infos ⟨initGroup infos, false,
        List.replicate (n + 1) FetchStep.wait⟩ =
        some (.waiting, [], ⟨initGroup infos, false, List.replicate n .wait⟩) := by
      rw [List.replicate_succ]
      simp [produceRow, produceLoop]
    rw [runFuel, hw]
    simp [ih]

/-! ### C10: empty group-register list -/

/-- C10: with an empty group-register list, `isSameGroup` is true for every
initialized row — in the pristine state as well — so the stream's first row
is folded in via `addLine` with no preceding `reset`, and hence without the
collected-values array buffer ever being opened. -/
theorem collect_C10_implicit_group (infos : Infos)
    (h : infos.groupRegisters = []) :
    (∀ (g : CollectGroup) (r : Row), g.isSameGroup infos (some r) = true) ∧
    (∀ (fd : Bool) (r : Row) (rest : List FetchStep),
      produceLoop infos (initGroup infos) fd (.row r :: rest) =
        produceLoop infos ((initGroup infos).addLine infos r) fd rest) ∧
    (∀ r : Row, ((initGroup infos).addLine infos r).builder.isOpenArray = false) := by
  have hsame : ∀ (g : CollectGroup) (r : Row), g.isSameGroup infos (some r) = true := by
    intro g r
    simp [CollectGroup.isSameGroup, h, sameKeys]
  refine ⟨hsame, ?_, ?_⟩
  · intro fd r rest
    simp [produceLoop, hsame]
  · intro r
    rw [addLine_builderOpen]
    rfl

/-- Witness for C10 at a concrete configuration with no group registers. -/
theorem collect_C10_witness :
    (∀ (g : CollectGroup) (r : Row),
      g.isSameGroup ⟨[], [], some 2, 1, true, [], false⟩ (some r) = true) ∧
    (∀ (fd : Bool) (r : Row) (rest : List FetchStep),
      produceLoop ⟨[], [], some 2, 1, true, [], false⟩
          (initGroup ⟨[], [], some 2, 1, true, [], false⟩) fd (.row r :: rest) =
        produceLoop ⟨[], [], some 2, 1, true, [], false⟩
          ((initGroup ⟨[], [], some 2, 1, true, [], false⟩).addLine
            ⟨[], [], some 2, 1, true, [], false⟩ r) fd rest) ∧
    (∀ r : Row,
      ((initGroup ⟨[], [], some 2, 1, true, [], false⟩).addLine
        ⟨[], [], some 2, 1, true, [], false⟩ r).builder.isOpenArray = false) :=
  collect_C10_implicit_group ⟨[], [], some 2, 1, true, [], false⟩ rfl

/-! ### C1: run completeness fails on a null-keyed first row -/

/-- Configuration exhibiting the C1 failure: one group register
(out 1 ← in 0), a collect register 2 in expression-array mode. -/
def infosC1 : Infos := ⟨[(1, 0)], [], some 2, 0, true, [], false⟩

/-- The failing first row: its single group-key column holds `null`, the
value default-constructed `AqlValue` group slots also hold. -/
def rowC1 : Row := ⟨[Value.nullV]⟩

/-- C1 (failing evaluation): the input stream consisting of the single row
`rowC1` is one maximal run, so per the claim exactly one output row must be
emitted; instead the run aborts with no output: the row's null group key
compares equal to the pristine null group slots, so the group is built via
`addLine` without a `reset` ever opening the collected-values array, and
`writeToOutput` fails `TRI_ASSERT(_builder.isOpenArray())` (in production
`VPackBuilder::close` throws). -/
theorem collect_C1_null_key_first_row_aborts :
    produceRow infosC1 ⟨initGroup infosC1, false, [.lastRow rowC1]⟩ = none ∧
    runFuel infosC1 1 ⟨initGroup infosC1, false, [.lastRow rowC1]⟩ = none :=
  ⟨rfl, rfl⟩

/-! ### C5: isSameGroup -/

theorem sameKeys_iff (regs : List (Nat × Nat)) (slots : List Slot) (r : Row) :
    sameKeys regs slots r = true ↔
      ∀ i, i < regs.length →
        cmpValue (slots.getD i ⟨none, Value.nullV⟩).val
          (r.getValue (regs.getD i (0, 0)).2) = .eq := by
  induction regs generalizing slots with
  | nil => simp [sameKeys]
  | cons p regs ih =>
    obtain ⟨o, src⟩ := p
    have step :
        ∀ (hd : Slot) (tl : List Slot),
          (∀ i, i < ((o, src) :: regs).length →
              cmpValue ((hd :: tl).getD i ⟨none, Value.nullV⟩).val
                (r.getValue (((o, src) :: regs).getD i (0, 0)).2) = .eq) ↔
            (cmpValue hd.val (r.getValue src) = .eq ∧
              ∀ i, i < regs.length →
                cmpValue (tl.getD i ⟨none, Value.nullV⟩).val
                  (r.getValue (regs.getD i (0, 0)).2) = .eq) := by
      intro hd tl
      constructor
      · intro hall
        refine ⟨by simpa using hall 0 (by simp), ?_⟩
        intro i hi
        simpa using hall (i + 1) (by simpa using hi)
      · rintro ⟨h0, hrest⟩ i hi
        cases i with
        | zero => simpa using h0
        | succ i => simpa using hrest i (by simpa using hi)
    cases slots with
    | nil =>
      rw [show sameKeys ((o, src) :: regs) [] r =
          (if cmpValue Value.nullV (r.getValue src) = .eq then sameKeys regs [] r
            else false) from rfl]
      by_cases h : cmpValue Value.nullV (r.getValue src) = .eq
      · rw [if_pos h, ih]
        constructor
        · intro hall i hi
          cases i with
          | zero => simpa using h
          | succ i =>
            have hi' : i < regs.length := by
              simp only [List.length_cons] at hi; omega
            simpa using hall i hi'
        · intro hall i hi
          have := hall (i + 1) (by simp only [List.length_cons]; omega)
          simpa using this
      · rw [if_neg h]
        simp only [Bool.false_eq_true, false_iff]
        intro hall
        have h0 := hall 0 (by simp)
        simp only [List.getD_nil, List.getD_cons_zero] at h0
        exact h h0
    | cons s slots =>
      rw [show sameKeys ((o, src) :: regs) (s :: slots) r =
          (if cmpValue s.val (r.getValue src) = .eq then sameKeys regs slots r
            else false) from rfl]
      by_cases h : cmpValue s.val (r.getValue src) = .eq
      · rw [if_pos h, ih]
        rw [step s slots]
        simp [h]
      · rw [if_neg h]
        simp only [Bool.false_eq_true, false_iff]
        intro hall
        exact h ((step s slots |>.mp hall).1)

/-- C5: `isSameGroup` is false on the end-of-stream sentinel; on an
initialized row it is true exactly when every configured group-key column
compares equal (under the 3-way value comparison) to the stored group value
at the same position, and a single differing column forces the result false
regardless of the other columns.  In this embedding the function is pure,
so it cannot mutate the accumulator. -/
theorem collect_C5_isSameGroup (infos : Infos) (g : CollectGroup) (r : Row) :
    g.isSameGroup infos none = false ∧
    (g.isSameGroup infos (some r) = true ↔
      ∀ i, i < infos.groupRegisters.length →
        cmpValue (g.groupValues.getD i ⟨none, Value.nullV⟩).val
          (r.getValue (infos.groupRegisters.getD i (0, 0)).2) = .eq) ∧
    (∀ i, i < infos.groupRegisters.length →
      cmpValue (g.groupValues.getD i ⟨none, Value.nullV⟩).val
          (r.getValue (infos.groupRegisters.getD i (0, 0)).2) ≠ .eq →
      g.isSameGroup infos (some r) = false) := by
  have hmain : g.isSameGroup infos (some r) = true ↔
      ∀ i, i < infos.groupRegisters.length →
        cmpValue (g.groupValues.getD i ⟨none, Value.nullV⟩).val
          (r.getValue (infos.groupRegisters.getD i (0, 0)).2) = .eq := by
    rw [show g.isSameGroup infos (some r) =
        sameKeys infos.groupRegisters g.groupValues r from rfl]
    exact sameKeys_iff _ _ _
  refine ⟨rfl, hmain, ?_⟩
  intro i hi hne
  cases hb : g.isSameGroup infos (some r) with
  | false => rfl
  | true => exact absurd (hmain.mp hb i hi) hne

/-- Witness for C5 at a concrete group and row. -/
theorem collect_C5_witness :
    (⟨[⟨some 0, .strV "A"⟩], 0, [], ⟨true, []⟩, some ⟨[.strV "A"]⟩, 1, []⟩ :
        CollectGroup).isSameGroup ⟨[(1, 0)], [], none, 0, false, [], false⟩ none = false ∧
    ((⟨[⟨some 0, .strV "A"⟩], 0, [], ⟨true, []⟩, some ⟨[.strV "A"]⟩, 1, []⟩ :
        CollectGroup).isSameGroup ⟨[(1, 0)], [], none, 0, false, [], false⟩
        (some ⟨[.strV "B"]⟩) = true ↔
      ∀ i, i < (Infos.groupRegisters ⟨[(1, 0)], [], none, 0, false, [], false⟩).length →
        cmpValue (([⟨some 0, .strV "A"⟩] : List Slot).getD i ⟨none, Value.nullV⟩).val
          (Row.getValue ⟨[.strV "B"]⟩
            ((Infos.groupRegisters ⟨[(1, 0)], [], none, 0, false, [], false⟩).getD
              i (0, 0)).2) = .eq) ∧
    (∀ i, i < (Infos.groupRegisters ⟨[(1, 0)], [], none, 0, false, [], false⟩).length →
      cmpValue (([⟨some 0, .strV "A"⟩] : List Slot).getD i ⟨none, Value.nullV⟩).val
          (Row.getValue ⟨[.strV "B"]⟩
            ((Infos.groupRegisters ⟨[(1, 0)], [], none, 0, false, [], false⟩).getD
              i (0, 0)).2) ≠ .eq →
      (⟨[⟨some 0, .strV "A"⟩], 0, [], ⟨true, []⟩, some ⟨[.strV "A"]⟩, 1, []⟩ :
        CollectGroup).isSameGroup ⟨[(1, 0)], [], none, 0, false, [], false⟩
        (some ⟨[.strV "B"]⟩) = false) :=
  collect_C5_isSameGroup ⟨[(1, 0)], [], none, 0, false, [], false⟩
    ⟨[⟨some 0, .strV "A"⟩], 0, [], ⟨true, []⟩, some ⟨[.strV "A"]⟩, 1, []⟩ ⟨[.strV "B"]⟩

/-! ### C4: CountOnly -/

theorem addLine_groupLength_count (infos : Infos) (g : CollectGroup) (r : Row)
    (c : Nat) (hc : infos.collectRegister = some c) (hcount : infos.count = true) :
    (g.addLine infos r).groupLength = g.groupLength + 1 := by
  simp [CollectGroup.addLine, hc, hcount]

theorem addLines_groupLength_count (infos : Infos) (g : CollectGroup) (rs : List Row)
    (c : Nat) (hc : infos.collectRegister = some c) (hcount : infos.count = true) :
    (addLines infos g rs).groupLength = g.groupLength + rs.length := by
  induction rs generalizing g with
  | nil => simp [addLines]
  | cons r rs ih =>
    rw [show addLines infos g (r :: rs) = addLines infos (g.addLine infos r) rs from rfl]
    rw [ih, addLine_groupLength_count infos g r c hc hcount]
    simp only [List.length_cons]
    omega

/-- C4: in CountOnly mode with a collect register configured, the group
length after `reset(row)` followed by the remaining `addLine`s equals the
number of contributing rows — the reset row counting as the run's first
member — and `writeToOutput` writes exactly that count to the collect
register. -/
theorem collect_C4_count (infos : Infos) (c : Nat) (g0 : CollectGroup) (r : Row)
    (rs : List Row) (hc : infos.collectRegister = some c) (hcount : infos.count = true) :
    (addLines infos (g0.reset infos (some r)) rs).groupLength = rs.length + 1 ∧
    ∀ ws g',
      (addLines infos (g0.reset infos (some r)) rs).writeToOutput infos = some (ws, g') →
      (c, OVal.cnt (rs.length + 1)) ∈ ws := by
  have hreset : (g0.reset infos (some r)).groupLength = 1 := by
    rw [show (g0.reset infos (some r)).groupLength =
        (CollectGroup.addLine
          { groupValues := cloneKeys g0.nextId infos.groupRegisters
              (if g0.groupValues.isEmpty then (destroyAll g0.groupValues).1
                else (destroyAll g0.groupValues).1.modifyHead Slot.eraseSlot) r,
            groupLength := 0,
            aggregators := g0.aggregators.map (fun _ => ([] : List Value)),
            builder := ⟨true, []⟩, lastInputRow := some r,
            nextId := g0.nextId + infos.groupRegisters.length,
            trace := g0.trace ++ (destroyAll g0.groupValues).2 } infos r).groupLength
      from rfl]
    rw [addLine_groupLength_count infos _ r c hc hcount]
  have hlen : (addLines infos (g0.reset infos (some r)) rs).groupLength = rs.length + 1 := by
    rw [addLines_groupLength_count infos _ rs c hc hcount, hreset]
    omega
  refine ⟨hlen, ?_⟩
  intro ws g' hw
  rw [CollectGroup.writeToOutput, hc] at hw
  simp only [hcount, if_true, Option.some.injEq, Prod.mk.injEq] at hw
  obtain ⟨hws, -⟩ := hw
  rw [← hws, hlen]
  simp

/-- Witness for C4 at a concrete CountOnly configuration. -/
theorem collect_C4_witness :
    (addLines ⟨[(1, 0)], [], some 2, 0, false, [], true⟩
        ((initGroup ⟨[(1, 0)], [], some 2, 0, false, [], true⟩).reset
          ⟨[(1, 0)], [], some 2, 0, false, [], true⟩ (some ⟨[.strV "A"]⟩))
        [⟨[.strV "A"]⟩, ⟨[.strV "A"]⟩]).groupLength = 3 ∧
    ∀ ws g',
      (addLines ⟨[(1, 0)], [], some 2, 0, false, [], true⟩
          ((initGroup ⟨[(1, 0)], [], some 2, 0, false, [], true⟩).reset
            ⟨[(1, 0)], [], some 2, 0, false, [], true⟩ (some ⟨[.strV "A"]⟩))
          [⟨[.strV "A"]⟩, ⟨[.strV "A"]⟩]).writeToOutput
        ⟨[(1, 0)], [], some 2, 0, false, [], true⟩ = some (ws, g') →
      (2, OVal.cnt 3) ∈ ws :=
  collect_C4_count ⟨[(1, 0)], [], some 2, 0, false, [], true⟩ 2
    (initGroup ⟨[(1, 0)], [], some 2, 0, false, [], true⟩) ⟨[.strV "A"]⟩
    [⟨[.strV "A"]⟩, ⟨[.strV "A"]⟩] rfl rfl

/-! ### Concrete fixtures used by witnesses -/

/-- A small concrete configuration: one group register (out 1 ← in 0), one
aggregator (out 3 ← in 1), no collect register. -/
def infosW : Infos := ⟨[(1, 0)], [(3, 1)], none, 0, false, [], false⟩

/-- Concrete row with group key "A". -/
def rowA : Row := ⟨[.strV "A", .intV 1]⟩

/-- Concrete row with group key "B". -/
def rowB : Row := ⟨[.strV "B", .intV 3]⟩

/-- The group open after resetting the pristine accumulator with `rowA`. -/
def groupW : CollectGroup := (initGroup infosW).reset infosW (some rowA)

/-- The output writes and successor accumulator `writeToOutput` produces for
`groupW`. -/
def writeW : OutRow × CollectGroup :=
  (groupW.writeToOutput infosW).getD ([], initGroup infosW)

/-! ### C3: group-boundary handling -/

/-- C3: when a pulled row starts a new group while a valid group is open,
the loop finalizes the open group, starts the new run via `reset(row)` and
reports `HASMORE` (the new run has a row to continue with); when instead the
stream is exhausted (a `DONE` pull with no row) it finalizes and reports
`DONE`; and a group left pending once the fetcher is done is finalized by
the next `produceRow` invocation, which reports `DONE`. -/
theorem collect_C3_group_boundary (infos : Infos) (g : CollectGroup) (fd : Bool)
    (r : Row) (rest script : List FetchStep) (out : OutRow) (g1 : CollectGroup)
    (hv : g.isValid = true) (hw : g.writeToOutput infos = some (out, g1)) :
    (g.isSameGroup infos (some r) = false →
      produceLoop infos g fd (.row r :: rest) =
        some (.hasmore, [out], g1.reset infos (some r), fd, rest) ∧
      produceLoop infos g fd (.lastRow r :: rest) =
        some (.hasmore, [out], g1.reset infos (some r), true, rest)) ∧
    produceLoop infos g fd [] = some (.done, [out], g1.reset infos none, true, []) ∧
    produceRow infos ⟨g, true, script⟩ =
      some (.done, [out], ⟨g1.reset infos none, true, script⟩) := by
  refine ⟨?_, ?_, ?_⟩
  · intro hs
    constructor
    · simp [produceLoop, hs, hv, hw]
    · simp [produceLoop, hs, hv, hw]
  · simp [produceLoop, hv, hw]
  · simp [produceRow, hv, hw]

/-- Witness for C3 at the concrete fixture group. -/
theorem collect_C3_witness :
    (groupW.isSameGroup infosW (some rowB) = false →
      produceLoop infosW groupW false (.row rowB :: []) =
        some (.hasmore, [writeW.1], writeW.2.reset infosW (some rowB), false, []) ∧
      produceLoop infosW groupW false (.lastRow rowB :: []) =
        some (.hasmore, [writeW.1], writeW.2.reset infosW (some rowB), true, [])) ∧
    produceLoop infosW groupW false [] =
      some (.done, [writeW.1], writeW.2.reset infosW none, true, []) ∧
    produceRow infosW ⟨groupW, true, []⟩ =
      some (.done, [writeW.1], ⟨writeW.2.reset infosW none, true, []⟩) :=
  collect_C3_group_boundary infosW groupW false rowB [] [] writeW.1 writeW.2 rfl rfl

/-! ### C8: at most one group emitted per invocation -/

theorem produceLoop_outs_le_one (infos : Infos) :
    ∀ (script : List FetchStep) (g : CollectGroup) (fd : Bool)
      (st : ExecutionState) (outs : List OutRow) (g' : CollectGroup) (fd' : Bool)
      (rest : List FetchStep),
      produceLoop infos g fd script = some (st, outs, g', fd', rest) →
      outs.length ≤ 1 := by
  intro script
  induction script with
  | nil =>
    intro g fd st outs g' fd' rest h
    simp only [produceLoop] at h
    split at h
    · split at h
      · exact absurd h (by simp)
      · simp only [Option.some.injEq, Prod.mk.injEq] at h
        obtain ⟨-, houts, -⟩ := h
        rw [← houts]
        simp
    · simp only [Option.some.injEq, Prod.mk.injEq] at h
      obtain ⟨-, houts, -⟩ := h
      rw [← houts]
      simp
  | cons x rest0 ih =>
    intro g fd st outs g' fd' rest h
    cases x with
    | wait =>
      simp only [produceLoop, Option.some.injEq, Prod.mk.injEq] at h
      obtain ⟨-, houts, -⟩ := h
      rw [← houts]
      simp
    | row r =>
      simp only [produceLoop] at h
      split at h
      · exact ih _ _ _ _ _ _ _ h
      · split at h
        · split at h
          · exact absurd h (by simp)
          · simp only [Option.some.injEq, Prod.mk.injEq] at h
            obtain ⟨-, houts, -⟩ := h
            rw [← houts]
            simp
        · exact ih _ _ _ _ _ _ _ h
    | lastRow r =>
      simp only [produceLoop] at h
      split at h
      · split at h
        · exact absurd h (by simp)
        · simp only [Option.some.injEq, Prod.mk.injEq] at h
          obtain ⟨-, houts, -⟩ := h
          rw [← houts]
          simp
      · split at h
        · split at h
          · exact absurd h (by simp)
          · simp only [Option.some.injEq, Prod.mk.injEq] at h
            obtain ⟨-, houts, -⟩ := h
            rw [← houts]
            simp
        · exact ih _ _ _ _ _ _ _ h

/-- C8: a single `produceRow` invocation emits at most one output row —
every path that finalizes a group returns before another `writeToOutput`
can occur. -/
theorem collect_C8_at_most_one_row (infos : Infos) (s : ExecState)
    (st : ExecutionState) (outs : List OutRow) (s' : ExecState)
    (h : produceRow infos s = some (st, outs, s')) : outs.length ≤ 1 := by
  rw [produceRow] at h
  split at h
  · split at h
    · exact absurd h (by simp)
    · simp only [Option.some.injEq, Prod.mk.injEq] at h
      obtain ⟨-, houts, -⟩ := h
      rw [← houts]
      simp
  · split at h
    · exact absurd h (by simp)
    · rename_i st0 outs0 g0 fd0 rest0 heq
      simp only [Option.some.injEq, Prod.mk.injEq] at h
      obtain ⟨-, houts, -⟩ := h
      rw [← houts]
      exact produceLoop_outs_le_one infos s.script s.group s.fetcherDone _ _ _ _ _ heq

/-- Witness for C8: a concrete invocation emitting zero rows. -/
theorem collect_C8_witness : ([] : List OutRow).length ≤ 1 :=
  collect_C8_at_most_one_row infosW ⟨initGroup infosW, false, []⟩ .done []
    ⟨initGroup infosW, true, []⟩ rfl

/-! ### C6: aggregator protocol -/

theorem reset_some_def (g : CollectGroup) (infos : Infos) (r : Row) :
    g.reset infos (some r) =
      CollectGroup.addLine
        { groupValues := cloneKeys g.nextId infos.groupRegisters
            (if g.groupValues.isEmpty then (destroyAll g.groupValues).1
              else (destroyAll g.groupValues).1.modifyHead Slot.eraseSlot) r,
          groupLength := 0,
          aggregators := g.aggregators.map (fun _ => ([] : List Value)),
          builder := ⟨true, []⟩, lastInputRow := some r,
          nextId := g.nextId + infos.groupRegisters.length,
          trace := g.trace ++ (destroyAll g.groupValues).2 } infos r := rfl

theorem reduceAll_map (regs : List (Nat × Nat)) (f : Nat × Nat → List Value) (r : Row) :
    reduceAll regs (regs.map f) r = regs.map (fun p => f p ++ [r.getValue p.2]) := by
  induction regs with
  | nil => rfl
  | cons p regs ih =>
    obtain ⟨o, src⟩ := p
    simp only [List.map_cons, reduceAll, ih]

theorem addLine_aggregators (infos : Infos) (g : CollectGroup) (r : Row) :
    (g.addLine infos r).aggregators = reduceAll infos.aggregateRegisters g.aggregators r := by
  unfold CollectGroup.addLine
  cases hcr : infos.collectRegister <;> cases hc : infos.count <;>
    cases he : infos.hasExpressionVariable <;> simp

theorem addLines_aggregators (infos : Infos) (rs : List Row) :
    ∀ (g : CollectGroup) (rows : List Row),
      g.aggregators = infos.aggregateRegisters.map
        (fun p => rows.map (fun q => q.getValue p.2)) →
      (addLines infos g rs).aggregators = infos.aggregateRegisters.map
        (fun p => (rows ++ rs).map (fun q => q.getValue p.2)) := by
  induction rs with
  | nil =>
    intro g rows hg
    simpa [addLines] using hg
  | cons r rs ih =>
    intro g rows hg
    rw [show addLines infos g (r :: rs) = addLines infos (g.addLine infos r) rs from rfl]
    have hstep : (g.addLine infos r).aggregators = infos.aggregateRegisters.map
        (fun p => (rows ++ [r]).map (fun q => q.getValue p.2)) := by
      rw [addLine_aggregators, hg, reduceAll_map]
      refine List.map_congr_left ?_
      intro p _
      simp
    have := ih (g.addLine infos r) (rows ++ [r]) hstep
    simpa using this

theorem writeAggs_map (regs : List (Nat × Nat)) (f : Nat × Nat → List Value) :
    writeAggs regs (regs.map f) =
      (regs.map (fun p => (p.1, OVal.agg (f p))), regs.map (fun _ => ([] : List Value))) := by
  induction regs with
  | nil => rfl
  | cons p regs ih =>
    obtain ⟨o, src⟩ := p
    simp only [List.map_cons, writeAggs, ih]

theorem writeKeys_fst_length (regs : List (Nat × Nat)) (slots : List Slot) :
    (writeKeys regs slots).1.length = regs.length := by
  induction regs generalizing slots with
  | nil => rfl
  | cons p regs ih =>
    obtain ⟨o, src⟩ := p
    cases slots with
    | nil => simp [writeKeys, ih]
    | cons s slots => simp [writeKeys, ih]

theorem writeToOutput_shape (g : CollectGroup) (infos : Infos) (ws : OutRow)
    (g' : CollectGroup) (h : g.writeToOutput infos = some (ws, g')) :
    (∃ cws, ws = (writeKeys infos.groupRegisters g.groupValues).1 ++
        (writeAggs infos.aggregateRegisters g.aggregators).1 ++ cws) ∧
    g'.aggregators = (writeAggs infos.aggregateRegisters g.aggregators).2 ∧
    g'.groupValues = (writeKeys infos.groupRegisters g.groupValues).2.1 ∧
    g'.trace = g.trace ++ (writeKeys infos.groupRegisters g.groupValues).2.2 ∧
    g'.nextId = g.nextId := by
  simp only [CollectGroup.writeToOutput] at h
  split at h
  · simp only [Option.some.injEq, Prod.mk.injEq] at h
    obtain ⟨hws, hg⟩ := h
    rw [← hws, ← hg]
    exact ⟨⟨[], by simp⟩, rfl, rfl, rfl, rfl⟩
  · split at h
    · simp only [Option.some.injEq, Prod.mk.injEq] at h
      obtain ⟨hws, hg⟩ := h
      rw [← hws, ← hg]
      exact ⟨⟨_, rfl⟩, rfl, rfl, rfl, rfl⟩
    · split at h
      · simp only [Option.some.injEq, Prod.mk.injEq] at h
        obtain ⟨hws, hg⟩ := h
        rw [← hws, ← hg]
        exact ⟨⟨_, rfl⟩, rfl, rfl, rfl, rfl⟩
      · exact absurd h (by simp)

/-- C6: for a group opened by `reset(r)` and extended with the rows `rs`,
every configured aggregator has received exactly one `reduce` per
contributing row, in order, with the value of its bound source register;
`writeToOutput` then steals each aggregator's result exactly once into that
aggregator's designated output register (the writes sit between the
group-key writes and the collected-value write), leaving every aggregator
empty. -/
theorem collect_C6_aggregator_protocol (infos : Infos) (g0 : CollectGroup) (r : Row)
    (rs : List Row)
    (hlen : g0.aggregators.length = infos.aggregateRegisters.length) :
    (addLines infos (g0.reset infos (some r)) rs).aggregators =
      infos.aggregateRegisters.map (fun p => (r :: rs).map (fun q => q.getValue p.2)) ∧
    ∀ ws g',
      (addLines infos (g0.reset infos (some r)) rs).writeToOutput infos = some (ws, g') →
      (∃ kws cws,
        ws = kws ++ infos.aggregateRegisters.map
            (fun p => (p.1, OVal.agg ((r :: rs).map (fun q => q.getValue p.2)))) ++ cws ∧
        kws.length = infos.groupRegisters.length) ∧
      g'.aggregators = infos.aggregateRegisters.map (fun _ => ([] : List Value)) := by
  have hreset : (g0.reset infos (some r)).aggregators =
      infos.aggregateRegisters.map (fun p => [r.getValue p.2]) := by
    rw [reset_some_def, addLine_aggregators]
    have hconst : g0.aggregators.map (fun _ => ([] : List Value)) =
        infos.aggregateRegisters.map (fun _ => ([] : List Value)) := by
      rw [List.map_const', List.map_const', hlen]
    rw [show (CollectGroup.aggregators
        { groupValues := cloneKeys g0.nextId infos.groupRegisters
            (if g0.groupValues.isEmpty then (destroyAll g0.groupValues).1
              else (destroyAll g0.groupValues).1.modifyHead Slot.eraseSlot) r,
          groupLength := 0,
          aggregators := g0.aggregators.map (fun _ => ([] : List Value)),
          builder := ⟨true, []⟩, lastInputRow := some r,
          nextId := g0.nextId + infos.groupRegisters.length,
          trace := g0.trace ++ (destroyAll g0.groupValues).2 }) =
        g0.aggregators.map (fun _ => ([] : List Value)) from rfl]
    rw [hconst, reduceAll_map]
    simp
  have hagg : (addLines infos (g0.reset infos (some r)) rs).aggregators =
      infos.aggregateRegisters.map (fun p => (r :: rs).map (fun q => q.getValue p.2)) := by
    have := addLines_aggregators infos rs (g0.reset infos (some r)) [r] (by simpa using hreset)
    simpa using this
  refine ⟨hagg, ?_⟩
  intro ws g' hw
  obtain ⟨⟨cws, hws⟩, haggs, -, -, -⟩ := writeToOutput_shape _ _ _ _ hw
  rw [hagg, writeAggs_map] at hws haggs
  refine ⟨⟨(writeKeys infos.groupRegisters
      (addLines infos (g0.reset infos (some r)) rs).groupValues).1, cws, ?_, ?_⟩, ?_⟩
  · simpa using hws
  · exact writeKeys_fst_length _ _
  · simpa using haggs

/-- Witness for C6 at a concrete configuration with one aggregator. -/
theorem collect_C6_witness :
    (addLines infosW ((initGroup infosW).reset infosW (some rowA)) [rowB]).aggregators =
      infosW.aggregateRegisters.map
        (fun p => ([rowA, rowB].map (fun q => q.getValue p.2))) ∧
    ∀ ws g',
      (addLines infosW ((initGroup infosW).reset infosW (some rowA))
          [rowB]).writeToOutput infosW = some (ws, g') →
      (∃ kws cws,
        ws = kws ++ infosW.aggregateRegisters.map
            (fun p => (p.1, OVal.agg ([rowA, rowB].map (fun q => q.getValue p.2)))) ++ cws ∧
        kws.length = infosW.groupRegisters.length) ∧
      g'.aggregators = infosW.aggregateRegisters.map (fun _ => ([] : List Value)) :=
  collect_C6_aggregator_protocol infosW (initGroup infosW) rowA [rowB] rfl

/-! ### C7: single-release ownership discipline -/

/-- The ownership tokens currently owned by the group-key slots. -/
def ownerIds (g : CollectGroup) : List Nat := g.groupValues.filterMap Slot.owner

/-- The ownership tokens released (destroyed or transferred) so far. -/
def traceIds (g : CollectGroup) : List Nat := g.trace.map evId

/-- Ownership invariant: no token is both owned and released or released
twice, and every token seen so far was allocated (is below `nextId`). -/
def goodGroup (g : CollectGroup) : Prop :=
  (ownerIds g ++ traceIds g).Nodup ∧ ∀ i ∈ ownerIds g ++ traceIds g, i < g.nextId

theorem destroyAll_fst_owners (slots : List Slot) :
    (destroyAll slots).1.filterMap Slot.owner = [] := by
  induction slots with
  | nil => rfl
  | cons s ss ih =>
    cases hs : s.owner <;>
      simp [destroyAll, Slot.destroy, hs, List.filterMap_cons, ih]

theorem destroyAll_snd_ids (slots : List Slot) :
    (destroyAll slots).2.map evId = slots.filterMap Slot.owner := by
  induction slots with
  | nil => rfl
  | cons s ss ih =>
    cases hs : s.owner <;>
      simp [destroyAll, Slot.destroy, hs, List.filterMap_cons, evId, ih]

theorem destroyAll_snd_nil (slots : List Slot) (h : ∀ s ∈ slots, s.owner = none) :
    (destroyAll slots).2 = [] := by
  induction slots with
  | nil => rfl
  | cons s ss ih =>
    have hs : s.owner = none := h s (by simp)
    have hss : (destroyAll ss).2 = [] :=
      ih (fun t ht => h t (List.mem_cons_of_mem s ht))
    simp [destroyAll, Slot.destroy, hs, hss]

theorem modifyHead_owners_nil (slots : List Slot)
    (h : slots.filterMap Slot.owner = []) :
    (slots.modifyHead Slot.eraseSlot).filterMap Slot.owner = [] := by
  cases slots with
  | nil => rfl
  | cons s ss =>
    have hss : List.filterMap Slot.owner ss = [] := by
      cases hs : s.owner with
      | none =>
        rw [List.filterMap_cons, hs] at h
        exact h
      | some i =>
        rw [List.filterMap_cons, hs] at h
        exact absurd h (List.cons_ne_nil _ _)
    show List.filterMap Slot.owner (s.eraseSlot :: ss) = []
    rw [List.filterMap_cons]
    exact hss

theorem cloneKeys_owners (regs : List (Nat × Nat)) :
    ∀ (slots : List Slot) (nid : Nat) (r : Row),
      slots.filterMap Slot.owner = [] →
      ∃ m, m ≤ regs.length ∧
        (cloneKeys nid regs slots r).filterMap Slot.owner = List.range' nid m := by
  induction regs with
  | nil =>
    intro slots nid r h
    exact ⟨0, by simp, by simpa [cloneKeys] using h⟩
  | cons p regs ih =>
    intro slots nid r h
    obtain ⟨o, src⟩ := p
    cases slots with
    | nil => exact ⟨0, by simp, by simp [cloneKeys]⟩
    | cons s ss =>
      simp only [List.filterMap_cons] at h
      cases hs : s.owner
      · rw [hs] at h
        obtain ⟨m, hm, heq⟩ := ih ss (nid + 1) r h
        refine ⟨m + 1, by simpa using Nat.succ_le_succ hm, ?_⟩
        rw [List.range'_succ]
        simp [cloneKeys, List.filterMap_cons, heq]
      · rw [hs] at h
        exact absurd h (by simp)

theorem writeKeys_perm (regs : List (Nat × Nat)) :
    ∀ slots : List Slot,
      ((writeKeys regs slots).2.1.filterMap Slot.owner ++
        (writeKeys regs slots).2.2.map evId).Perm (slots.filterMap Slot.owner) := by
  induction regs with
  | nil =>
    intro slots
    simp [writeKeys]
  | cons p regs ih =>
    intro slots
    obtain ⟨o, src⟩ := p
    cases slots with
    | nil =>
      simpa [writeKeys] using ih []
    | cons s ss =>
      cases hs : s.owner with
      | none =>
        simpa [writeKeys, hs, Slot.eraseSlot, List.filterMap_cons] using ih ss
      | some i =>
        simp only [writeKeys, hs, Slot.eraseSlot, List.filterMap_cons,
          List.map_append, List.map_cons, List.map_nil, evId]
        refine List.Perm.trans (List.perm_middle) ?_
        exact List.Perm.cons i (ih ss)

theorem writeKeys_allNone (regs : List (Nat × Nat)) :
    ∀ slots : List Slot, slots.length = regs.length →
      ∀ s ∈ (writeKeys regs slots).2.1, s.owner = none := by
  induction regs with
  | nil =>
    intro slots hlen s hsmem
    rw [List.length_eq_zero.mp hlen] at hsmem
    simp [writeKeys] at hsmem
  | cons p regs ih =>
    intro slots hlen s hsmem
    obtain ⟨o, src⟩ := p
    cases slots with
    | nil => simp at hlen
    | cons t ts =>
      simp only [writeKeys, List.mem_cons] at hsmem
      rcases hsmem with h | h
      · rw [h]; rfl
      · exact ih ts (by simpa using hlen) s h

theorem addLine_good (infos : Infos) (g : CollectGroup) (r : Row)
    (h : goodGroup g) : goodGroup (g.addLine infos r) := by
  unfold goodGroup ownerIds traceIds at h ⊢
  rw [addLine_groupValues, addLine_trace, addLine_nextId]
  exact h

theorem reset_good (infos : Infos) (g : CollectGroup) (input : Option Row)
    (h : goodGroup g) : goodGroup (g.reset infos input) := by
  obtain ⟨hnd, hlt⟩ := h
  have hslots2 :
      (if g.groupValues.isEmpty then (destroyAll g.groupValues).1
        else (destroyAll g.groupValues).1.modifyHead Slot.eraseSlot).filterMap
        Slot.owner = [] := by
    split
    · exact destroyAll_fst_owners _
    · exact modifyHead_owners_nil _ (destroyAll_fst_owners _)
  have hperm :
      ((g.trace ++ (destroyAll g.groupValues).2).map evId).Perm
        (ownerIds g ++ traceIds g) := by
    rw [List.map_append, destroyAll_snd_ids]
    exact List.perm_append_comm.trans (List.Perm.append_right _ (List.Perm.refl _))
  cases input with
  | none =>
    constructor
    · rw [show ownerIds (g.reset infos none) =
          (if g.groupValues.isEmpty then (destroyAll g.groupValues).1
            else (destroyAll g.groupValues).1.modifyHead Slot.eraseSlot).filterMap
            Slot.owner from rfl]
      rw [hslots2]
      simp only [List.nil_append]
      exact (hperm.nodup_iff).mpr hnd
    · intro i hi
      rw [show ownerIds (g.reset infos none) =
          (if g.groupValues.isEmpty then (destroyAll g.groupValues).1
            else (destroyAll g.groupValues).1.modifyHead Slot.eraseSlot).filterMap
            Slot.owner from rfl, hslots2] at hi
      simp only [List.nil_append] at hi
      have := hlt i (hperm.mem_iff.mp hi)
      exact this
  | some r =>
    obtain ⟨m, hm, hclone⟩ :=
      cloneKeys_owners infos.groupRegisters
        (if g.groupValues.isEmpty then (destroyAll g.groupValues).1
          else (destroyAll g.groupValues).1.modifyHead Slot.eraseSlot)
        g.nextId r hslots2
    have howner : ownerIds (g.reset infos (some r)) = List.range' g.nextId m := by
      rw [reset_some_def]
      rw [show ownerIds
          (CollectGroup.addLine
            { groupValues := cloneKeys g.nextId infos.groupRegisters
                (if g.groupValues.isEmpty then (destroyAll g.groupValues).1
                  else (destroyAll g.groupValues).1.modifyHead Slot.eraseSlot) r,
              groupLength := 0,
              aggregators := g.aggregators.map (fun _ => ([] : List Value)),
              builder := ⟨true, []⟩, lastInputRow := some r,
              nextId := g.nextId + infos.groupRegisters.length,
              trace := g.trace ++ (destroyAll g.groupValues).2 } infos r) =
          (cloneKeys g.nextId infos.groupRegisters
            (if g.groupValues.isEmpty then (destroyAll g.groupValues).1
              else (destroyAll g.groupValues).1.modifyHead Slot.eraseSlot) r).filterMap
            Slot.owner from by
        unfold ownerIds
        rw [addLine_groupValues]]
      exact hclone
    have htrace : traceIds (g.reset infos (some r)) =
        (g.trace ++ (destroyAll g.groupValues).2).map evId := by
      rw [reset_some_def]
      unfold traceIds
      rw [addLine_trace]
    have hnext : (g.reset infos (some r)).nextId =
        g.nextId + infos.groupRegisters.length := by
      rw [reset_some_def, addLine_nextId]
    constructor
    · rw [howner, htrace]
      rw [List.nodup_append]
      refine ⟨List.nodup_range' g.nextId m, hperm.nodup_iff.mpr hnd, ?_⟩
      intro i hi hi'
      have h1 : g.nextId ≤ i := (List.mem_range'_1.mp hi).1
      have h2 : i < g.nextId := hlt i (hperm.mem_iff.mp hi')
      omega
    · intro i hi
      rw [howner, htrace] at hi
      rw [hnext]
      rcases List.mem_append.mp hi with hi | hi
      · have := (List.mem_range'_1.mp hi).2
        omega
      · have := hlt i (hperm.mem_iff.mp hi)
        omega

theorem write_good (infos : Infos) (g : CollectGroup) (ws : OutRow) (g' : CollectGroup)
    (hw : g.writeToOutput infos = some (ws, g')) (h : goodGroup g) : goodGroup g' := by
  obtain ⟨hnd, hlt⟩ := h
  obtain ⟨-, -, hgv, htr, hni⟩ := writeToOutput_shape g infos ws g' hw
  have hperm : (ownerIds g' ++ traceIds g').Perm (ownerIds g ++ traceIds g) := by
    unfold ownerIds traceIds
    rw [hgv, htr, List.map_append]
    have p1 : ((writeKeys infos.groupRegisters g.groupValues).2.1.filterMap Slot.owner ++
        (g.trace.map evId ++
          (writeKeys infos.groupRegisters g.groupValues).2.2.map evId)).Perm
        ((writeKeys infos.groupRegisters g.groupValues).2.1.filterMap Slot.owner ++
          ((writeKeys infos.groupRegisters g.groupValues).2.2.map evId ++
            g.trace.map evId)) :=
      List.Perm.append_left _ List.perm_append_comm
    have p2 : ((writeKeys infos.groupRegisters g.groupValues).2.1.filterMap Slot.owner ++
        ((writeKeys infos.groupRegisters g.groupValues).2.2.map evId ++
          g.trace.map evId)) =
        ((writeKeys infos.groupRegisters g.groupValues).2.1.filterMap Slot.owner ++
          (writeKeys infos.groupRegisters g.groupValues).2.2.map evId) ++
          g.trace.map evId := (List.append_assoc _ _ _).symm
    have p3 : (((writeKeys infos.groupRegisters g.groupValues).2.1.filterMap Slot.owner ++
        (writeKeys infos.groupRegisters g.groupValues).2.2.map evId) ++
          g.trace.map evId).Perm
        (g.groupValues.filterMap Slot.owner ++ g.trace.map evId) :=
      List.Perm.append_right _ (writeKeys_perm infos.groupRegisters g.groupValues)
    exact p1.trans (p2 ▸ p3)
  constructor
  · exact hperm.nodup_iff.mpr hnd
  · intro i hi
    rw [hni]
    exact hlt i (hperm.mem_iff.mp hi)

theorem initGroup_good (infos : Infos) : goodGroup (initGroup infos) := by
  have howner : ownerIds (initGroup infos) = [] := by
    unfold ownerIds initGroup
    induction infos.groupRegisters.length with
    | zero => rfl
    | succ n ih =>
      rw [List.replicate_succ, List.filterMap_cons]
      exact ih
  constructor
  · rw [show traceIds (initGroup infos) = [] from rfl, howner]
    simp
  · intro i hi
    rw [show traceIds (initGroup infos) = [] from rfl, howner] at hi
    simp at hi

theorem produceLoop_good (infos : Infos) :
    ∀ (script : List FetchStep) (g : CollectGroup) (fd : Bool)
      (st : ExecutionState) (outs : List OutRow) (g' : CollectGroup) (fd' : Bool)
      (rest : List FetchStep),
      goodGroup g → produceLoop infos g fd script = some (st, outs, g', fd', rest) →
      goodGroup g' := by
  intro script
  induction script with
  | nil =>
    intro g fd st outs g' fd' rest hg h
    simp only [produceLoop] at h
    split at h
    · split at h
      · exact absurd h (by simp)
      · rename_i out g1 heq
        simp only [Option.some.injEq, Prod.mk.injEq] at h
        obtain ⟨-, -, hg', -⟩ := h
        rw [← hg']
        exact reset_good infos g1 none (write_good infos g _ g1 heq hg)
    · simp only [Option.some.injEq, Prod.mk.injEq] at h
      obtain ⟨-, -, hg', -⟩ := h
      rw [← hg']
      exact hg
  | cons x rest0 ih =>
    intro g fd st outs g' fd' rest hg h
    cases x with
    | wait =>
      simp only [produceLoop, Option.some.injEq, Prod.mk.injEq] at h
      obtain ⟨-, -, hg', -⟩ := h
      rw [← hg']
      exact hg
    | row r =>
      simp only [produceLoop] at h
      split at h
      · exact ih _ _ _ _ _ _ _ (addLine_good infos g r hg) h
      · split at h
        · split at h
          · exact absurd h (by simp)
          · rename_i out g1 heq
            simp only [Option.some.injEq, Prod.mk.injEq] at h
            obtain ⟨-, -, hg', -⟩ := h
            rw [← hg']
            exact reset_good infos g1 (some r) (write_good infos g _ g1 heq hg)
        · exact ih _ _ _ _ _ _ _ (reset_good infos g (some r) hg) h
    | lastRow r =>
      simp only [produceLoop] at h
      split at h
      · split at h
        · exact absurd h (by simp)
        · rename_i out g1 heq
          simp only [Option.some.injEq, Prod.mk.injEq] at h
          obtain ⟨-, -, hg', -⟩ := h
          rw [← hg']
          exact reset_good infos g1 none
            (write_good infos (g.addLine infos r) _ g1 heq (addLine_good infos g r hg))
      · split at h
        · split at h
          · exact absurd h (by simp)
          · rename_i out g1 heq
            simp only [Option.some.injEq, Prod.mk.injEq] at h
            obtain ⟨-, -, hg', -⟩ := h
            rw [← hg']
            exact reset_good infos g1 (some r) (write_good infos g _ g1 heq hg)
        · exact ih _ _ _ _ _ _ _ (reset_good infos g (some r) hg) h

theorem produceRow_good (infos : Infos) (s : ExecState) (st : ExecutionState)
    (outs : List OutRow) (s' : ExecState) (hg : goodGroup s.group)
    (h : produceRow infos s = some (st, outs, s')) : goodGroup s'.group := by
  rw [produceRow] at h
  split at h
  · split at h
    · exact absurd h (by simp)
    · rename_i out g1 heq
      simp only [Option.some.injEq, Prod.mk.injEq] at h
      obtain ⟨-, -, hs'⟩ := h
      rw [← hs']
      exact reset_good infos g1 none (write_good infos s.group _ g1 heq hg)
  · split at h
    · exact absurd h (by simp)
    · rename_i st0 outs0 g0 fd0 rest0 heq
      simp only [Option.some.injEq, Prod.mk.injEq] at h
      obtain ⟨-, -, hs'⟩ := h
      rw [← hs']
      exact produceLoop_good infos s.script s.group s.fetcherDone _ _ _ _ _ hg heq

theorem runFuel_good (infos : Infos) :
    ∀ (f : Nat) (s : ExecState) (outs : List OutRow) (sf : ExecState),
      goodGroup s.group → runFuel infos f s = some (outs, sf) →
      goodGroup sf.group := by
  intro f
  induction f with
  | zero =>
    intro s outs sf _ h
    exact absurd h (by simp [runFuel])
  | succ f ih =>
    intro s outs sf hg h
    rw [runFuel] at h
    split at h
    · exact absurd h (by simp)
    · rename_i st0 outs0 s0 heq
      have hg0 := produceRow_good infos s st0 outs0 s0 hg heq
      split at h
      · simp only [Option.some.injEq, Prod.mk.injEq] at h
        obtain ⟨-, hsf⟩ := h
        rw [← hsf]
        exact hg0
      · split at h
        · exact absurd h (by simp)
        · rename_i rest1 s1 heq1
          simp only [Option.some.injEq, Prod.mk.injEq] at h
          obtain ⟨-, hsf⟩ := h
          rw [← hsf]
          exact ih s0 rest1 s1 hg0 heq1

/-- C7: after `writeToOutput`, every group-key slot has been erased
following the ownership transfer, so the following `reset` releases nothing
(it records no release event); and over any machine run from the initial
state, every ownership token is released — destroyed or transferred — at
most once. -/
theorem collect_C7_ownership (infos : Infos) (g : CollectGroup) (ws : OutRow)
    (g' : CollectGroup) (f : Nat) (script : List FetchStep) (outs : List OutRow)
    (sf : ExecState) :
    (g.groupValues.length = infos.groupRegisters.length →
      g.writeToOutput infos = some (ws, g') →
      (∀ s ∈ g'.groupValues, s.owner = none) ∧
      (g'.reset infos none).trace = g'.trace) ∧
    (runFuel infos f ⟨initGroup infos, false, script⟩ = some (outs, sf) →
      ((ownerIds sf.group ++ traceIds sf.group).Nodup ∧ (traceIds sf.group).Nodup)) := by
  constructor
  · intro hlen hw
    obtain ⟨-, -, hgv, -, -⟩ := writeToOutput_shape g infos ws g' hw
    have hall : ∀ s ∈ g'.groupValues, s.owner = none := by
      rw [hgv]
      exact writeKeys_allNone infos.groupRegisters g.groupValues hlen
    refine ⟨hall, ?_⟩
    rw [show (g'.reset infos none).trace = g'.trace ++ (destroyAll g'.groupValues).2
      from rfl]
    rw [destroyAll_snd_nil g'.groupValues hall]
    simp
  · intro hrun
    have hgood := runFuel_good infos f ⟨initGroup infos, false, script⟩ outs sf
      (initGroup_good infos) hrun
    exact ⟨hgood.1, (List.nodup_append.mp hgood.1).2.1⟩

/-- The result of a concrete two-invocation machine run, used by the C7
witness. -/
def runW : List OutRow × ExecState :=
  (runFuel infosW 2 ⟨initGroup infosW, false, [.lastRow rowA]⟩).getD
    ([], ⟨initGroup infosW, false, []⟩)

/-- Witness for C7 at the concrete fixture group and a concrete run. -/
theorem collect_C7_witness :
    ((∀ s ∈ writeW.2.groupValues, s.owner = none) ∧
      (writeW.2.reset infosW none).trace = writeW.2.trace) ∧
    ((ownerIds runW.2.group ++ traceIds runW.2.group).Nodup ∧
      (traceIds runW.2.group).Nodup) :=
  ⟨(collect_C7_ownership infosW groupW writeW.1 writeW.2 2 [.lastRow rowA]
      runW.1 runW.2).1 rfl rfl,
    (collect_C7_ownership infosW groupW writeW.1 writeW.2 2 [.lastRow rowA]
      runW.1 runW.2).2 rfl⟩


/-! ### C2: suspension handling and idempotent resumption -/

theorem produceLoop_rest_le (infos : Infos) :
    ∀ (script : List FetchStep) (g : CollectGroup) (fd : Bool)
      (st : ExecutionState) (outs : List OutRow) (g' : CollectGroup) (fd' : Bool)
      (rest : List FetchStep),
      produceLoop infos g fd script = some (st, outs, g', fd', rest) →
      rest.length ≤ script.length ∧ (st ≠ .done → rest.length < script.length) := by
  intro script
  induction script with
  | nil =>
    intro g fd st outs g' fd' rest h
    simp only [produceLoop] at h
    split at h
    · split at h
      · exact absurd h (by simp)
      · simp only [Option.some.injEq, Prod.mk.injEq] at h
        obtain ⟨hst, -, -, -, hrest⟩ := h
        rw [← hrest]
        exact ⟨le_rfl, fun hne => absurd hst.symm hne⟩
    · simp only [Option.some.injEq, Prod.mk.injEq] at h
      obtain ⟨hst, -, -, -, hrest⟩ := h
      rw [← hrest]
      exact ⟨le_rfl, fun hne => absurd hst.symm hne⟩
  | cons x rest0 ih =>
    intro g fd st outs g' fd' rest h
    cases x with
    | wait =>
      simp only [produceLoop, Option.some.injEq, Prod.mk.injEq] at h
      obtain ⟨-, -, -, -, hrest⟩ := h
      rw [← hrest]
      exact ⟨by simp, fun _ => by simp⟩
    | row r =>
      simp only [produceLoop] at h
      split at h
      · obtain ⟨h1, h2⟩ := ih _ _ _ _ _ _ _ h
        exact ⟨h1.trans (by simp), fun hne => (h2 hne).trans (by simp)⟩
      · split at h
        · split at h
          · exact absurd h (by simp)
          · simp only [Option.some.injEq, Prod.mk.injEq] at h
            obtain ⟨-, -, -, -, hrest⟩ := h
            rw [← hrest]
            exact ⟨by simp, fun _ => by simp⟩
        · obtain ⟨h1, h2⟩ := ih _ _ _ _ _ _ _ h
          exact ⟨h1.trans (by simp), fun hne => (h2 hne).trans (by simp)⟩
    | lastRow r =>
      simp only [produceLoop] at h
      split at h
      · split at h
        · exact absurd h (by simp)
        · simp only [Option.some.injEq, Prod.mk.injEq] at h
          obtain ⟨-, -, -, -, hrest⟩ := h
          rw [← hrest]
          exact ⟨by simp, fun _ => by simp⟩
      · split at h
        · split at h
          · exact absurd h (by simp)
          · simp only [Option.some.injEq, Prod.mk.injEq] at h
            obtain ⟨-, -, -, -, hrest⟩ := h
            rw [← hrest]
            exact ⟨by simp, fun _ => by simp⟩
        · obtain ⟨h1, h2⟩ := ih _ _ _ _ _ _ _ h
          exact ⟨h1.trans (by simp), fun hne => (h2 hne).trans (by simp)⟩

theorem produceRow_script_le (infos : Infos) (s : ExecState) (st : ExecutionState)
    (outs : List OutRow) (s' : ExecState)
    (h : produceRow infos s = some (st, outs, s')) :
    s'.script.length ≤ s.script.length ∧
      (st ≠ .done → s'.script.length < s.script.length) := by
  rw [produceRow] at h
  split at h
  · split at h
    · exact absurd h (by simp)
    · simp only [Option.some.injEq, Prod.mk.injEq] at h
      obtain ⟨hst, -, hs'⟩ := h
      rw [← hs']
      exact ⟨le_rfl, fun hne => absurd hst.symm hne⟩
  · split at h
    · exact absurd h (by simp)
    · rename_i st0 outs0 g0 fd0 rest0 heq
      simp only [Option.some.injEq, Prod.mk.injEq] at h
      obtain ⟨hst, -, hs'⟩ := h
      obtain ⟨h1, h2⟩ := produceLoop_rest_le infos s.script s.group s.fetcherDone _ _ _ _ _ heq
      rw [← hs']
      exact ⟨h1, fun hne => h2 (hst ▸ hne)⟩

theorem runFuel_stable (infos : Infos) :
    ∀ (k f1 f2 : Nat) (s : ExecState),
      s.script.length ≤ k → k < f1 → k < f2 →
      runFuel infos f1 s = runFuel infos f2 s := by
  intro k
  induction k with
  | zero =>
    intro f1 f2 s h0 h1 h2
    obtain ⟨a, rfl⟩ : ∃ a, f1 = a + 1 := ⟨f1 - 1, by omega⟩
    obtain ⟨b, rfl⟩ : ∃ b, f2 = b + 1 := ⟨f2 - 1, by omega⟩
    rw [runFuel, runFuel]
    cases hp : produceRow infos s with
    | none => rfl
    | some t =>
      obtain ⟨st, outs, s'⟩ := t
      by_cases hst : st = ExecutionState.done
      · simp [hst]
      · exfalso
        have := (produceRow_script_le infos s st outs s' hp).2 hst
        omega
  | succ k ih =>
    intro f1 f2 s h0 h1 h2
    obtain ⟨a, rfl⟩ : ∃ a, f1 = a + 1 := ⟨f1 - 1, by omega⟩
    obtain ⟨b, rfl⟩ : ∃ b, f2 = b + 1 := ⟨f2 - 1, by omega⟩
    rw [runFuel, runFuel]
    cases hp : produceRow infos s with
    | none => rfl
    | some t =>
      obtain ⟨st, outs, s'⟩ := t
      by_cases hst : st = ExecutionState.done
      · simp [hst]
      · have hlt := (produceRow_script_le infos s st outs s' hp).2 hst
        have heq : runFuel infos a s' = runFuel infos b s' :=
          ih a b s' (by omega) (by omega) (by omega)
        simp [hst, heq]

theorem runFuel_eq_run (infos : Infos) (f : Nat) (s : ExecState)
    (h : s.script.length < f) : runFuel infos f s = run infos s :=
  runFuel_stable infos s.script.length f (s.script.length + 1) s le_rfl h
    (Nat.lt_succ_self _)

theorem run_unfold (infos : Infos) (s : ExecState) :
    run infos s =
      match produceRow infos s with
      | none => none
      | some (st, outs, s') =>
        if st = .done then some (outs, s')
        else
          match run infos s' with
          | none => none
          | some (rest, s'') => some (outs ++ rest, s'') := by
  rw [run, runFuel]
  cases hp : produceRow infos s with
  | none => rfl
  | some t =>
    obtain ⟨st, outs, s'⟩ := t
    by_cases hst : st = ExecutionState.done
    · simp [hst]
    · have hlt := (produceRow_script_le infos s st outs s' hp).2 hst
      have hr := runFuel_eq_run infos s.script.length s' hlt
      simp [hst, hr]

theorem produceLoop_nil_shape (infos : Infos) (g : CollectGroup) (fd : Bool) :
    (g.isValid = true ∧ g.writeToOutput infos = none ∧
      produceLoop infos g fd [] = none) ∨
    (∃ out g1, g.isValid = true ∧ g.writeToOutput infos = some (out, g1) ∧
      produceLoop infos g fd [] = some (.done, [out], g1.reset infos none, true, [])) ∨
    (g.isValid = false ∧ produceLoop infos g fd [] = some (.done, [], g, true, [])) := by
  cases hv : g.isValid
  · exact Or.inr (Or.inr ⟨rfl, by simp [produceLoop, hv]⟩)
  · cases hw : g.writeToOutput infos with
    | none => exact Or.inl ⟨rfl, rfl, by simp [produceLoop, hv, hw]⟩
    | some p =>
      obtain ⟨out, g1⟩ := p
      exact Or.inr (Or.inl ⟨out, g1, rfl, rfl, by simp [produceLoop, hv, hw]⟩)


theorem produceLoop_erase (infos : Infos) :
    ∀ (script : List FetchStep), wfScript script = true → ∀ g : CollectGroup,
      (∃ g2 rest2,
        produceLoop infos g false script = some (.waiting, [], g2, false, rest2) ∧
        wfScript rest2 = true ∧
        produceLoop infos g false (eraseWaits script) =
          produceLoop infos g2 false (eraseWaits rest2)) ∨
      (produceLoop infos g false script = none ∧
        produceLoop infos g false (eraseWaits script) = none) ∨
      (∃ st outs g2 fd2 rest2,
        produceLoop infos g false script = some (st, outs, g2, fd2, rest2) ∧
        st ≠ .waiting ∧ wfScript rest2 = true ∧ (fd2 = true → rest2 = []) ∧
        produceLoop infos g false (eraseWaits script) =
          some (st, outs, g2, fd2, eraseWaits rest2)) := by
  intro script
  induction script with
  | nil =>
    intro _ g
    rcases produceLoop_nil_shape infos g false with
      ⟨hv, hw, hres⟩ | ⟨out, g1, hv, hw, hres⟩ | ⟨hv, hres⟩
    · exact Or.inr (Or.inl ⟨hres, hres⟩)
    · exact Or.inr (Or.inr ⟨.done, [out], g1.reset infos none, true, [],
        hres, by decide, rfl, fun _ => rfl, hres⟩)
    · exact Or.inr (Or.inr ⟨.done, [], g, true, [],
        hres, by decide, rfl, fun _ => rfl, hres⟩)
  | cons x rest ih =>
    intro hwf g
    cases x with
    | wait =>
      exact Or.inl ⟨g, rest, rfl, hwf, rfl⟩
    | row r =>
      have hwfr : wfScript rest = true := hwf
      have herase : eraseWaits (.row r :: rest) = .row r :: eraseWaits rest := rfl
      cases hsame : g.isSameGroup infos (some r)
      · cases hv : g.isValid
        · have hL : produceLoop infos g false (.row r :: rest) =
              produceLoop infos (g.reset infos (some r)) false rest := by
            simp [produceLoop, hsame, hv]
          have hR : produceLoop infos g false (eraseWaits (.row r :: rest)) =
              produceLoop infos (g.reset infos (some r)) false (eraseWaits rest) := by
            rw [herase]
            simp [produceLoop, hsame, hv]
          rcases ih hwfr (g.reset infos (some r)) with
            ⟨g2, rest2, h1, h2, h3⟩ | ⟨h1, h2⟩ |
            ⟨st, outs, g2, fd2, rest2, h1, h2, h3, h4, h5⟩
          · exact Or.inl ⟨g2, rest2, by rw [hL]; exact h1, h2, by rw [hR]; exact h3⟩
          · exact Or.inr (Or.inl ⟨by rw [hL]; exact h1, by rw [hR]; exact h2⟩)
          · exact Or.inr (Or.inr ⟨st, outs, g2, fd2, rest2,
              by rw [hL]; exact h1, h2, h3, h4, by rw [hR]; exact h5⟩)
        · cases hw : g.writeToOutput infos with
          | none =>
            refine Or.inr (Or.inl ⟨?_, ?_⟩)
            · simp [produceLoop, hsame, hv, hw]
            · rw [herase]
              simp [produceLoop, hsame, hv, hw]
          | some p =>
            obtain ⟨out, g1⟩ := p
            refine Or.inr (Or.inr ⟨.hasmore, [out], g1.reset infos (some r), false,
              rest, ?_, by decide, hwfr, by simp, ?_⟩)
            · simp [produceLoop, hsame, hv, hw]
            · rw [herase]
              simp [produceLoop, hsame, hv, hw]
      · have hL : produceLoop infos g false (.row r :: rest) =
            produceLoop infos (g.addLine infos r) false rest := by
          simp [produceLoop, hsame]
        have hR : produceLoop infos g false (eraseWaits (.row r :: rest)) =
            produceLoop infos (g.addLine infos r) false (eraseWaits rest) := by
          rw [herase]
          simp [produceLoop, hsame]
        rcases ih hwfr (g.addLine infos r) with
          ⟨g2, rest2, h1, h2, h3⟩ | ⟨h1, h2⟩ |
          ⟨st, outs, g2, fd2, rest2, h1, h2, h3, h4, h5⟩
        · exact Or.inl ⟨g2, rest2, by rw [hL]; exact h1, h2, by rw [hR]; exact h3⟩
        · exact Or.inr (Or.inl ⟨by rw [hL]; exact h1, by rw [hR]; exact h2⟩)
        · exact Or.inr (Or.inr ⟨st, outs, g2, fd2, rest2,
            by rw [hL]; exact h1, h2, h3, h4, by rw [hR]; exact h5⟩)
    | lastRow r =>
      cases rest with
      | cons y ys => exact absurd hwf (by simp [wfScript])
      | nil =>
        have herase : eraseWaits [FetchStep.lastRow r] = [FetchStep.lastRow r] := rfl
        cases hsame : g.isSameGroup infos (some r)
        · cases hv : g.isValid
          · have hL : produceLoop infos g false [FetchStep.lastRow r] =
                produceLoop infos (g.reset infos (some r)) true [] := by
              simp [produceLoop, hsame, hv]
            rcases produceLoop_nil_shape infos (g.reset infos (some r)) true with
              ⟨-, -, hres⟩ | ⟨out, g1, -, -, hres⟩ | ⟨-, hres⟩
            · exact Or.inr (Or.inl ⟨by rw [hL]; exact hres,
                by rw [herase, hL]; exact hres⟩)
            · exact Or.inr (Or.inr ⟨.done, [out], g1.reset infos none, true, [],
                by rw [hL]; exact hres, by decide, rfl, fun _ => rfl,
                by rw [herase, hL]; exact hres⟩)
            · exact Or.inr (Or.inr ⟨.done, [], g.reset infos (some r), true, [],
                by rw [hL]; exact hres, by decide, rfl, fun _ => rfl,
                by rw [herase, hL]; exact hres⟩)
          · cases hw : g.writeToOutput infos with
            | none =>
              refine Or.inr (Or.inl ⟨?_, ?_⟩)
              · simp [produceLoop, hsame, hv, hw]
              · rw [herase]
                simp [produceLoop, hsame, hv, hw]
            | some p =>
              obtain ⟨out, g1⟩ := p
              refine Or.inr (Or.inr ⟨.hasmore, [out], g1.reset infos (some r), true,
                [], ?_, by decide, rfl, fun _ => rfl, ?_⟩)
              · simp [produceLoop, hsame, hv, hw]
              · rw [herase]
                simp [produceLoop, hsame, hv, hw, eraseWaits]
        · cases hw : (g.addLine infos r).writeToOutput infos with
          | none =>
            refine Or.inr (Or.inl ⟨?_, ?_⟩)
            · simp [produceLoop, hsame, hw]
            · rw [herase]
              simp [produceLoop, hsame, hw]
          | some p =>
            obtain ⟨out, g1⟩ := p
            refine Or.inr (Or.inr ⟨.done, [out], g1.reset infos none, true, [],
              ?_, by decide, rfl, fun _ => rfl, ?_⟩)
            · simp [produceLoop, hsame, hw]
            · rw [herase]
              simp [produceLoop, hsame, hw, eraseWaits]


theorem run_erase (infos : Infos) :
    ∀ (n : Nat) (script : List FetchStep), script.length ≤ n →
      wfScript script = true → ∀ g : CollectGroup,
      (run infos ⟨g, false, script⟩).map Prod.fst =
        (run infos ⟨g, false, eraseWaits script⟩).map Prod.fst := by
  intro n
  induction n with
  | zero =>
    intro script hlen hwf g
    have hnil : script = [] := List.length_eq_zero.mp (Nat.le_zero.mp hlen)
    subst hnil
    rfl
  | succ n ih =>
    intro script hlen hwf g
    rcases produceLoop_erase infos script hwf g with
      ⟨g2, rest2, h1, h2, h3⟩ | ⟨h1, h2⟩ |
      ⟨st, outs, g2, fd2, rest2, h1, h2, h3, h4, h5⟩
    · have hrest2 : rest2.length < script.length :=
        (produceLoop_rest_le infos script g false _ _ _ _ _ h1).2 (by decide)
      have hPR : produceRow infos ⟨g, false, script⟩ =
          some (.waiting, [], ⟨g2, false, rest2⟩) := by
        rw [produceRow_fd_false, h1]
      have hL : (run infos ⟨g, false, script⟩).map Prod.fst =
          (run infos ⟨g2, false, rest2⟩).map Prod.fst := by
        rw [run_unfold, hPR]
        cases hr : run infos ⟨g2, false, rest2⟩ with
        | none => simp [hr]
        | some p =>
          obtain ⟨outs1, s1⟩ := p
          simp [hr]
      have hPR2 : produceRow infos ⟨g, false, eraseWaits script⟩ =
          produceRow infos ⟨g2, false, eraseWaits rest2⟩ := by
        rw [produceRow_fd_false, produceRow_fd_false, h3]
      have hR : run infos ⟨g, false, eraseWaits script⟩ =
          run infos ⟨g2, false, eraseWaits rest2⟩ := by
        rw [run_unfold infos ⟨g, false, eraseWaits script⟩,
          run_unfold infos ⟨g2, false, eraseWaits rest2⟩, hPR2]
      rw [hL, hR]
      exact ih rest2 (by omega) h2 g2
    · have hPRl : produceRow infos ⟨g, false, script⟩ = none := by
        rw [produceRow_fd_false, h1]
      have hPRr : produceRow infos ⟨g, false, eraseWaits script⟩ = none := by
        rw [produceRow_fd_false, h2]
      rw [run_unfold infos ⟨g, false, script⟩, hPRl,
        run_unfold infos ⟨g, false, eraseWaits script⟩, hPRr]
    · have hPRl : produceRow infos ⟨g, false, script⟩ =
          some (st, outs, ⟨g2, fd2, rest2⟩) := by
        rw [produceRow_fd_false, h1]
      have hPRr : produceRow infos ⟨g, false, eraseWaits script⟩ =
          some (st, outs, ⟨g2, fd2, eraseWaits rest2⟩) := by
        rw [produceRow_fd_false, h5]
      by_cases hst : st = ExecutionState.done
      · subst hst
        rw [run_unfold infos ⟨g, false, script⟩, hPRl,
          run_unfold infos ⟨g, false, eraseWaits script⟩, hPRr]
        simp
      · have hrest2 : rest2.length < script.length :=
          (produceLoop_rest_le infos script g false _ _ _ _ _ h1).2 hst
        cases fd2 with
        | true =>
          have hnil : rest2 = [] := h4 rfl
          subst hnil
          rw [run_unfold infos ⟨g, false, script⟩, hPRl,
            run_unfold infos ⟨g, false, eraseWaits script⟩, hPRr]
          rfl
        | false =>
          have hcont := ih rest2 (by omega) h3 g2
          rw [run_unfold infos ⟨g, false, script⟩, hPRl,
            run_unfold infos ⟨g, false, eraseWaits script⟩, hPRr]
          simp only [if_neg hst]
          cases hr1 : run infos ⟨g2, false, rest2⟩ with
          | none =>
            cases hr2 : run infos ⟨g2, false, eraseWaits rest2⟩ with
            | none => simp
            | some q =>
              rw [hr1, hr2] at hcont
              simp at hcont
          | some p =>
            obtain ⟨outs1, s1⟩ := p
            cases hr2 : run infos ⟨g2, false, eraseWaits rest2⟩ with
            | none =>
              rw [hr1, hr2] at hcont
              simp at hcont
            | some q =>
              obtain ⟨outs2, s2⟩ := q
              rw [hr1, hr2] at hcont
              simp at hcont
              simp [hcont]

/-- C2: a `WAITING` reply from the fetcher is propagated immediately: the
invocation returns `WAITING`, produces nothing, and leaves the accumulator
and the `_fetcherDone` flag untouched, so the pull is simply retried on the
next invocation; and for any well-formed fetch script, repeatedly invoking
`produceRow` yields the same sequence of emitted output rows as the
equivalent run in which the source never suspends — no row is
double-counted or dropped. -/
theorem collect_C2_suspension (infos : Infos) (g : CollectGroup) (fd : Bool)
    (rest script : List FetchStep) (hwf : wfScript script = true) :
    produceLoop infos g fd (.wait :: rest) = some (.waiting, [], g, fd, rest) ∧
    produceRow infos ⟨g, false, .wait :: rest⟩ =
      some (.waiting, [], ⟨g, false, rest⟩) ∧
    (run infos ⟨g, false, script⟩).map Prod.fst =
      (run infos ⟨g, false, eraseWaits script⟩).map Prod.fst := by
  refine ⟨rfl, rfl, run_erase infos script.length script le_rfl hwf g⟩

/-- Witness for C2 on a concrete suspended script. -/
theorem collect_C2_witness :
    produceLoop infosW (initGroup infosW) false (.wait :: []) =
      some (.waiting, [], initGroup infosW, false, []) ∧
    produceRow infosW ⟨initGroup infosW, false, .wait :: []⟩ =
      some (.waiting, [], ⟨initGroup infosW, false, []⟩) ∧
    (run infosW ⟨initGroup infosW, false,
        [.wait, .row rowA, .wait, .lastRow rowB]⟩).map Prod.fst =
      (run infosW ⟨initGroup infosW, false,
        eraseWaits [.wait, .row rowA, .wait, .lastRow rowB]⟩).map Prod.fst :=
  collect_C2_suspension infosW (initGroup infosW) false []
    [.wait, .row rowA, .wait, .lastRow rowB] rfl

end SortedCollect
